import Mathlib

/-!
# herald analysis runner: ListManager and VariantSet

A shallow embedding of `herald/analysis/runner.h`.  `AnalysisRunner` stands in
that header only inside comments (lines 168 to 229): the program has no such
type, and none is embedded here.

* `SampledID` and `SampleList<Sample<ValT>,Size>` come from `sampling.h`, which is
  not part of the sources at hand.  The embedding is generic in both: `K` is the
  identifier type, `dflt : K` the value a value-initialised `SampledID` has
  (`mKey()`), `L` the sample-list type and `empty : L` a value-initialised list
  (`mValue()`).  A push through a returned `SampleList&` is any function `L → L`.
* `std::array<ListManagerEntry<SampledID>,MaxLists>` is a `List` whose length is
  `MaxLists`; no operation changes the length.
* `int nextPos` starts at 0 and is only ever incremented, once per created
  entry, so it is a `Nat`.
* `lists[nextPos++]` is unchecked in the source.  An index outside the array is
  undefined behaviour; the embedding reports it as `ListResult.outOfBounds`.
-/

namespace herald.analysis

/-- The private `ListManager::ListManagerEntry<Key>`: a key and its sample list. -/
structure ListManagerEntry (K L : Type) where
  mKey : K
  mValue : L
  deriving DecidableEq, Repr

namespace ListManagerEntry

variable {K L : Type}

/-- `emplace(k)`: `mKey = k; return value();` the list is left as it is. -/
def emplace (e : ListManagerEntry K L) (k : K) : ListManagerEntry K L :=
  { e with mKey := k }

/-- `key()`. -/
def key (e : ListManagerEntry K L) : K := e.mKey

/-- `value()`. -/
def value (e : ListManagerEntry K L) : L := e.mValue

end ListManagerEntry

/-- The state of a `ListManager<ValT,Size,MaxLists>`: the pool and `nextPos`. -/
structure ListManager (K L : Type) where
  lists : List (ListManagerEntry K L)
  nextPos : Nat
  deriving DecidableEq, Repr

/-- What a call of `list()` does: it returns a reference to the list of a pool
slot and leaves the manager in state `after`, or it indexes the array at
`index`, which is not below `MaxLists`, with `nextPos` already stepped to
`nextPos`. -/
inductive ListResult (K L : Type) where
  | ref (slot : Nat) (after : ListManager K L)
  | outOfBounds (index : Nat) (nextPos : Nat)
  deriving DecidableEq, Repr

namespace ListManager

variable {K L : Type}

/-- `ListManager() : lists(), nextPos(0)`: every entry is `mKey(), mValue()`. -/
def new (MaxLists : Nat) (dflt : K) (empty : L) : ListManager K L :=
  { lists := List.replicate MaxLists { mKey := dflt, mValue := empty }, nextPos := 0 }

/-- `MaxLists`, the length of the `std::array`. -/
def MaxLists (m : ListManager K L) : Nat := m.lists.length

/-- The loop `for (auto& entry : lists) if (entry.key() == sampled) return ...`:
the index of the first entry of the whole array whose key equals `sampled`. -/
def scan [DecidableEq K] (sampled : K) : List (ListManagerEntry K L) → Option Nat
  | [] => none
  | entry :: rest =>
    if entry.key = sampled then some 0 else (scan sampled rest).map (· + 1)

/-- `list(sampled)`. -/
def list [DecidableEq K] (m : ListManager K L) (sampled : K) : ListResult K L :=
  match scan sampled m.lists with
  | some i => ListResult.ref i m
  | none =>
    match m.lists[m.nextPos]? with
    | some val =>
      ListResult.ref m.nextPos
        { lists := m.lists.set m.nextPos (val.emplace sampled), nextPos := m.nextPos + 1 }
    | none => ListResult.outOfBounds m.nextPos (m.nextPos + 1)

/-- `remove(listFor)`: the body holds only comments. -/
def remove (m : ListManager K L) (_listFor : K) : ListManager K L := m

/-- `size()`: `return nextPos;`. -/
def size (m : ListManager K L) : Nat := m.nextPos

/-- A mutation `f` made through a reference to the list of pool slot `slot`
(a `push` on the `SampleList&` that `list()` returned). -/
def mutate (m : ListManager K L) (slot : Nat) (f : L → L) : ListManager K L :=
  match m.lists[slot]? with
  | some e => { m with lists := m.lists.set slot { e with mValue := f e.mValue } }
  | none => m

/-- The list that a reference to pool slot `slot` shows. -/
def listAt (m : ListManager K L) (slot : Nat) : Option L :=
  (m.lists[slot]?).map ListManagerEntry.value

/-- The key of pool slot `slot`. -/
def keyAt (m : ListManager K L) (slot : Nat) : Option K :=
  (m.lists[slot]?).map ListManagerEntry.key

/-- The states a client can bring a manager in state `start` to: `list()` calls
that stay within the pool, `remove()` calls, and mutations of the slots' lists
through references. -/
inductive ReachableFrom [DecidableEq K] (start : ListManager K L) :
    ListManager K L → Prop where
  | start : ReachableFrom start start
  | list {m : ListManager K L} (sampled : K) (slot : Nat) (after : ListManager K L) :
      ReachableFrom start m → m.list sampled = ListResult.ref slot after →
      ReachableFrom start after
  | remove {m : ListManager K L} (listFor : K) :
      ReachableFrom start m → ReachableFrom start (m.remove listFor)
  | mutate {m : ListManager K L} (slot : Nat) (f : L → L) :
      ReachableFrom start m → ReachableFrom start (m.mutate slot f)

/-- The states reachable from the construction of a manager with `MaxLists`
slots. -/
def Reachable [DecidableEq K] (MaxLists : Nat) (dflt : K) (empty : L)
    (m : ListManager K L) : Prop :=
  ReachableFrom (new MaxLists dflt empty) m

/-- The invariant of the pool: the array keeps its length, `nextPos` stays within
it, and the entries below `nextPos` have pairwise different keys. -/
def Inv (MaxLists : Nat) (m : ListManager K L) : Prop :=
  m.lists.length = MaxLists ∧ m.nextPos ≤ MaxLists ∧
    ∀ i j : Nat, i < j → j < m.nextPos → m.keyAt i ≠ m.keyAt j

/-- The keys of the unused slots: from `nextPos` on every key is still the
value-initialised one, and no entry below `nextPos` has that key. -/
def UnusedDefault (dflt : K) (m : ListManager K L) : Prop :=
  (∀ i : Nat, m.nextPos ≤ i → i < m.lists.length → m.keyAt i = some dflt) ∧
    ∀ i : Nat, i < m.nextPos → m.keyAt i ≠ some dflt

/-- Identifier `sampled` has the entry in slot `slot`. -/
def Tracked (m : ListManager K L) (sampled : K) (slot : Nat) : Prop :=
  slot < m.nextPos ∧ m.keyAt slot = some sampled

/-- A sequence of `list()` calls, one per identifier of the list, in order: the
slots returned by those calls whose identifier the scan matched with no pool
entry, in the order of the calls; `none` when a call indexes outside the pool. -/
def createdSlots [DecidableEq K] : ListManager K L → List K → Option (List Nat)
  | _, [] => some []
  | m, sampled :: rest =>
    match m.list sampled with
    | ListResult.ref slot after =>
      (createdSlots after rest).map fun slots =>
        if (scan sampled m.lists).isNone then slot :: slots else slots
    | ListResult.outOfBounds _ _ => none

end ListManager

/-! ## VariantSet

The declared types `ValTs...` are named by the elements of a type `τ`, and
`El t` is the type of the values of `t`.  `std::variant`'s `emplace<T>` and
`std::get_if<T>` are only well-formed when `T` occurs once in `ValTs...`, so a
held alternative is named by its type.  The pack is `FirstT :: RestT`: neither
overload of `createInstances` accepts an empty one. -/

/-- A `std::variant<ValTs...>`: the alternative it holds and the value. -/
structure Variant {τ : Type} (El : τ → Type) where
  type : τ
  value : El type

/-- The state of a `VariantSet<ValTs...>`: the array `variants`. -/
structure VariantSet {τ : Type} (El : τ → Type) where
  variants : List (Variant El)

/-- What `get<ValT>()` does: return a reference to the value held by a slot, or
throw `std::bad_variant_access`. -/
inductive GetResult where
  | ref (slot : Nat)
  | bad_variant_access
  deriving DecidableEq, Repr

namespace VariantSet

variable {τ : Type} {El : τ → Type}

/-- A variant that holds a value-initialised `t`. -/
def fresh [∀ t, Inhabited (El t)] (t : τ) : Variant El := { type := t, value := default }

/-- `variants[pos].template emplace<T>()`: the slot now holds a value-initialised
`T`; `none` when `pos` is not an index of the array. -/
def emplaceAt [∀ t, Inhabited (El t)] (variants : List (Variant El)) (pos : Nat) (T : τ) :
    Option (List (Variant El)) :=
  if pos < variants.length then some (variants.set pos (fresh T)) else none

/-- Both overloads of `createInstances`: `createInstances<LastT>(pos)` and
`createInstances<FirstT,SecondT,RestT...>(pos)`. -/
def createInstances [∀ t, Inhabited (El t)] :
    τ → List τ → Nat → List (Variant El) → Option (List (Variant El))
  | LastT, [], pos, variants => emplaceAt variants pos LastT
  | FirstT, SecondT :: RestT, pos, variants =>
    (emplaceAt variants pos FirstT).bind (createInstances SecondT RestT (pos + 1))

/-- `VariantSet() : variants() { createInstances<ValTs...>(0); }`: the array has
`Size = sizeof...(ValTs)` slots, each first holding a value-initialised variant
(its first alternative); `none` when a write falls outside the array. -/
def new [∀ t, Inhabited (El t)] (FirstT : τ) (RestT : List τ) : Option (VariantSet El) :=
  (createInstances FirstT RestT 0 (List.replicate (RestT.length + 1) (fresh FirstT))).map
    VariantSet.mk

/-- The loop of `get<ValT>()`: the index of the first variant for which
`std::get_if<ValT>` is not null. -/
def firstHolding [DecidableEq τ] (ValT : τ) : List (Variant El) → Option Nat
  | [] => none
  | v :: rest => if v.type = ValT then some 0 else (firstHolding ValT rest).map (· + 1)

/-- `get<ValT>()`. -/
def get [DecidableEq τ] (s : VariantSet El) (ValT : τ) : GetResult :=
  match firstHolding ValT s.variants with
  | some i => GetResult.ref i
  | none => GetResult.bad_variant_access

/-- `size()`: `return variants.size();`. -/
def size (s : VariantSet El) : Nat := s.variants.length

/-- The value seen through a `ValT&` that refers into slot `slot`. -/
def read [DecidableEq τ] (s : VariantSet El) (slot : Nat) (ValT : τ) : Option (El ValT) :=
  match s.variants[slot]? with
  | some v => if h : v.type = ValT then some (h ▸ v.value) else none
  | none => none

/-- A mutation `f` made through a `ValT&` that refers into slot `slot`. -/
def write [DecidableEq τ] (s : VariantSet El) (slot : Nat) (ValT : τ)
    (f : El ValT → El ValT) : VariantSet El :=
  match s.variants[slot]? with
  | some v =>
    if h : v.type = ValT then
      { variants := s.variants.set slot { type := ValT, value := f (h ▸ v.value) } }
    else s
  | none => s

/-- The states of a `VariantSet<FirstT,RestT...>`: construction, then mutations
through the references that `get<ValT>()` returns. -/
inductive Reachable [∀ t, Inhabited (El t)] [DecidableEq τ] (FirstT : τ) (RestT : List τ) :
    VariantSet El → Prop where
  | construct (s : VariantSet El) : new FirstT RestT = some s → Reachable FirstT RestT s
  | write {s : VariantSet El} (ValT : τ) (slot : Nat) (f : El ValT → El ValT) :
      Reachable FirstT RestT s → s.get ValT = GetResult.ref slot →
      Reachable FirstT RestT (s.write slot ValT f)

end VariantSet

/-! ## Concrete managers

Identifiers are natural numbers with 0 the value-initialised one (as for an
unsigned integer `SampledID`), a sample list is the list of its samples, oldest
first, and a push appends. -/

namespace Example

/-- Two declared value types. -/
inductive ValueType where
  | rssi
  | distance
  deriving DecidableEq, Repr

/-- The values of the two types. -/
def ValueType.El : ValueType → Type
  | ValueType.rssi => Int
  | ValueType.distance => Nat

instance (t : ValueType) : Inhabited (ValueType.El t) :=
  match t with
  | ValueType.rssi => ⟨(0 : Int)⟩
  | ValueType.distance => ⟨(0 : Nat)⟩

/-- A push of sample `s` through a list reference. -/
def push (s : Nat) (l : List Nat) : List Nat := l ++ [s]

/-- A freshly constructed manager with `MaxLists = 2`. -/
def fresh2 : ListManager Nat (List Nat) := ListManager.new 2 0 []

/-- A freshly constructed manager with `MaxLists = 3`. -/
def fresh3 : ListManager Nat (List Nat) := ListManager.new 3 0 []

/-- The manager with `MaxLists = 2` after `list(1)`. -/
def one2 : ListManager Nat (List Nat) :=
  { lists := [{ mKey := 1, mValue := [] }, { mKey := 0, mValue := [] }], nextPos := 1 }

/-- The manager with `MaxLists = 2` after `list(1)` and `list(2)`. -/
def full2 : ListManager Nat (List Nat) :=
  { lists := [{ mKey := 1, mValue := [] }, { mKey := 2, mValue := [] }], nextPos := 2 }

/-- A manager with `MaxLists = 2` whose slot 0 has key 5 and holds the sample 7. -/
def five2 : ListManager Nat (List Nat) :=
  { lists := [{ mKey := 5, mValue := [7] }, { mKey := 0, mValue := [] }], nextPos := 1 }

/-- The manager `five2` with the sample 8 in slot 1. -/
def five2pushed : ListManager Nat (List Nat) :=
  { lists := [{ mKey := 5, mValue := [7] }, { mKey := 0, mValue := [8] }], nextPos := 1 }

/-- The manager with `MaxLists = 3` after `list(4)`. -/
def four3 : ListManager Nat (List Nat) :=
  { lists := [{ mKey := 4, mValue := [] }, { mKey := 0, mValue := [] },
      { mKey := 0, mValue := [] }], nextPos := 1 }

/-- A manager with `MaxLists = 3` whose slot 1 has key 6 and holds the sample 9. -/
def foursix3 : ListManager Nat (List Nat) :=
  { lists := [{ mKey := 4, mValue := [] }, { mKey := 6, mValue := [9] },
      { mKey := 0, mValue := [] }], nextPos := 2 }

end Example

/-! ## Lemmas on the scan and on the steps -/

namespace ListManager

variable {K L : Type}

lemma scan_eq_none [DecidableEq K] (sampled : K) :
    ∀ (l : List (ListManagerEntry K L)), scan sampled l = none →
      ∀ e ∈ l, e.mKey ≠ sampled
  | [], _, e, he => by simp at he
  | entry :: rest, h, e, he => by
    unfold scan at h
    by_cases hk : entry.key = sampled
    · simp [hk] at h
    · simp only [hk, if_false, Option.map_eq_none'] at h
      rcases List.mem_cons.mp he with rfl | hm
      · exact hk
      · exact scan_eq_none sampled rest h e hm

lemma scan_eq_some [DecidableEq K] (sampled : K) :
    ∀ (l : List (ListManagerEntry K L)) (i : Nat), scan sampled l = some i →
      (∃ e, l[i]? = some e ∧ e.mKey = sampled) ∧
        ∀ j, j < i → ∀ e, l[j]? = some e → e.mKey ≠ sampled
  | [], i, h => by simp [scan] at h
  | entry :: rest, i, h => by
    unfold scan at h
    by_cases hk : entry.key = sampled
    · simp only [hk, if_true, Option.some.injEq] at h
      subst h
      exact ⟨⟨entry, by simp, hk⟩, fun j hj => absurd hj (Nat.not_lt_zero j)⟩
    · simp only [hk, if_false, Option.map_eq_some'] at h
      obtain ⟨i', hi', rfl⟩ := h
      obtain ⟨⟨e, he, hes⟩, hlt⟩ := scan_eq_some sampled rest i' hi'
      refine ⟨⟨e, by simpa using he, hes⟩, ?_⟩
      intro j hj e' he'
      cases j with
      | zero =>
        simp only [List.getElem?_cons_zero, Option.some.injEq] at he'
        subst he'
        exact hk
      | succ j =>
        simp only [List.getElem?_cons_succ] at he'
        exact hlt j (by omega) e' he'

lemma keyAt_mutate (m : ListManager K L) (slot : Nat) (f : L → L) (i : Nat) :
    (m.mutate slot f).keyAt i = m.keyAt i := by
  unfold mutate keyAt
  cases hs : m.lists[slot]? with
  | none => rfl
  | some e =>
    simp only [List.getElem?_set]
    by_cases hi : slot = i
    · subst hi
      have hlt : slot < m.lists.length := (List.getElem?_eq_some_iff.mp hs).1
      simp [hlt, hs, ListManagerEntry.key]
    · simp [hi]

lemma Inv_new (MaxLists : Nat) (dflt : K) (empty : L) :
    Inv MaxLists (new MaxLists dflt empty) := by
  refine ⟨by simp [new], by simp [new], ?_⟩
  intro i j _ hj
  simp [new] at hj

lemma Inv_mutate {MaxLists : Nat} {m : ListManager K L} (h : Inv MaxLists m)
    (slot : Nat) (f : L → L) : Inv MaxLists (m.mutate slot f) := by
  obtain ⟨hlen, hpos, hkeys⟩ := h
  have hl : (m.mutate slot f).lists.length = m.lists.length := by
    unfold mutate
    cases m.lists[slot]? <;> simp
  have hn : (m.mutate slot f).nextPos = m.nextPos := by
    unfold mutate
    cases m.lists[slot]? <;> simp
  refine ⟨hl.trans hlen, hn ▸ hpos, ?_⟩
  intro i j hij hj
  rw [keyAt_mutate, keyAt_mutate]
  exact hkeys i j hij (hn ▸ hj)

lemma Inv_list [DecidableEq K] {MaxLists : Nat} {m : ListManager K L}
    (h : Inv MaxLists m) (sampled : K) (slot : Nat) (after : ListManager K L)
    (hr : m.list sampled = ListResult.ref slot after) : Inv MaxLists after := by
  obtain ⟨hlen, hpos, hkeys⟩ := h
  unfold list at hr
  cases hs : scan sampled m.lists with
  | some i =>
    simp only [hs, ListResult.ref.injEq] at hr
    rw [← hr.2]
    exact ⟨hlen, hpos, hkeys⟩
  | none =>
    simp only [hs] at hr
    cases hv : m.lists[m.nextPos]? with
    | none => simp [hv] at hr
    | some val =>
      simp only [hv, ListResult.ref.injEq] at hr
      have hlt : m.nextPos < m.lists.length := (List.getElem?_eq_some_iff.mp hv).1
      rw [← hr.2]
      refine ⟨by simpa using hlen, by simp only; omega, ?_⟩
      intro i j hij hj
      simp only at hj
      have hilt : i < m.lists.length := by omega
      unfold keyAt
      simp only [List.getElem?_set]
      have hne : ¬ m.nextPos = i := by omega
      by_cases hjn : m.nextPos = j
      · subst hjn
        simp only [hne, if_false, if_true, hlt, Option.map_some']
        rw [List.getElem?_eq_getElem hilt]
        simp only [Option.map_some', ne_eq, Option.some.injEq]
        exact scan_eq_none sampled m.lists hs _ (List.getElem_mem hilt)
      · simp only [hne, hjn, if_false]
        exact hkeys i j hij (by omega)

lemma Inv_of_reachableFrom [DecidableEq K] {MaxLists : Nat} {start m : ListManager K L}
    (hs : Inv MaxLists start) (h : ReachableFrom start m) : Inv MaxLists m := by
  induction h with
  | start => exact hs
  | list sampled slot after _ hr ih => exact Inv_list ih sampled slot after hr
  | remove listFor _ ih => exact ih
  | mutate slot f _ ih => exact Inv_mutate ih slot f

lemma Inv_of_reachable [DecidableEq K] {MaxLists : Nat} {dflt : K} {empty : L}
    {m : ListManager K L} (h : Reachable MaxLists dflt empty m) : Inv MaxLists m :=
  Inv_of_reachableFrom (Inv_new MaxLists dflt empty) h

lemma list_cases [DecidableEq K] {m : ListManager K L} {sampled : K} {slot : Nat}
    {after : ListManager K L} (h : m.list sampled = ListResult.ref slot after) :
    (scan sampled m.lists = some slot ∧ after = m) ∨
      (scan sampled m.lists = none ∧ slot = m.nextPos ∧ ∃ val, m.lists[m.nextPos]? = some val ∧
        after = { lists := m.lists.set m.nextPos (val.emplace sampled),
                  nextPos := m.nextPos + 1 }) := by
  unfold list at h
  cases hs : scan sampled m.lists with
  | some i =>
    simp only [hs, ListResult.ref.injEq] at h
    exact Or.inl ⟨by rw [h.1], h.2.symm⟩
  | none =>
    simp only [hs] at h
    cases hv : m.lists[m.nextPos]? with
    | none => simp [hv] at h
    | some val =>
      simp only [hv, ListResult.ref.injEq] at h
      exact Or.inr ⟨rfl, h.1.symm, val, rfl, h.2.symm⟩

lemma keyAt_created (m : ListManager K L) (sampled : K) (val : ListManagerEntry K L)
    (hv : m.lists[m.nextPos]? = some val) (i : Nat) :
    keyAt { lists := m.lists.set m.nextPos (val.emplace sampled), nextPos := m.nextPos + 1 } i
      = if m.nextPos = i then some sampled else m.keyAt i := by
  have hlt : m.nextPos < m.lists.length := (List.getElem?_eq_some_iff.mp hv).1
  unfold keyAt
  simp only [List.getElem?_set]
  by_cases hi : m.nextPos = i
  · subst hi
    simp [hlt, ListManagerEntry.key, ListManagerEntry.emplace]
  · simp [hi]

lemma UnusedDefault_new (MaxLists : Nat) (dflt : K) (empty : L) :
    UnusedDefault dflt (new MaxLists dflt empty) := by
  refine ⟨?_, ?_⟩
  · intro i _ hi
    have hi' : i < MaxLists := by simpa [new] using hi
    simp [keyAt, new, hi', ListManagerEntry.key]
  · intro i hi
    simp [new] at hi

lemma UnusedDefault_mutate {dflt : K} {m : ListManager K L} (h : UnusedDefault dflt m)
    (slot : Nat) (f : L → L) : UnusedDefault dflt (m.mutate slot f) := by
  have hl : (m.mutate slot f).lists.length = m.lists.length := by
    unfold mutate
    cases m.lists[slot]? <;> simp
  have hn : (m.mutate slot f).nextPos = m.nextPos := by
    unfold mutate
    cases m.lists[slot]? <;> simp
  refine ⟨?_, ?_⟩
  · intro i hi hil
    rw [keyAt_mutate]
    exact h.1 i (hn ▸ hi) (hl ▸ hil)
  · intro i hi
    rw [keyAt_mutate]
    exact h.2 i (hn ▸ hi)

lemma UnusedDefault_list [DecidableEq K] {dflt : K} {m : ListManager K L}
    (h : UnusedDefault dflt m) {sampled : K} {slot : Nat} {after : ListManager K L}
    (hr : m.list sampled = ListResult.ref slot after) : UnusedDefault dflt after := by
  rcases list_cases hr with ⟨_, rfl⟩ | ⟨hs, _, val, hv, rfl⟩
  · exact h
  · have hlt : m.nextPos < m.lists.length := (List.getElem?_eq_some_iff.mp hv).1
    have hne : sampled ≠ dflt := by
      intro he
      have hk := h.1 m.nextPos (le_refl _) hlt
      simp only [keyAt, hv, Option.map_some', Option.some.injEq] at hk
      exact scan_eq_none sampled m.lists hs val (List.getElem?_mem hv) (hk.trans he.symm)
    refine ⟨?_, ?_⟩
    · intro i hi hil
      simp only at hi
      rw [keyAt_created m sampled val hv, if_neg (by omega)]
      exact h.1 i (by omega) (by simpa using hil)
    · intro i hi
      simp only at hi
      rw [keyAt_created m sampled val hv]
      by_cases hin : m.nextPos = i
      · simpa [hin] using hne
      · rw [if_neg hin]
        exact h.2 i (by omega)

lemma UnusedDefault_of_reachableFrom [DecidableEq K] {dflt : K} {start m : ListManager K L}
    (hs : UnusedDefault dflt start) (h : ReachableFrom start m) : UnusedDefault dflt m := by
  induction h with
  | start => exact hs
  | list sampled slot after _ hr ih => exact UnusedDefault_list ih hr
  | remove listFor _ ih => exact ih
  | mutate slot f _ ih => exact UnusedDefault_mutate ih slot f

lemma Tracked_of_reachableFrom [DecidableEq K] {start m : ListManager K L} {sampled : K}
    {slot : Nat} (hs : Tracked start sampled slot) (h : ReachableFrom start m) :
    Tracked m sampled slot := by
  induction h with
  | start => exact hs
  | list id s after _ hr ih =>
    rcases list_cases hr with ⟨_, rfl⟩ | ⟨_, _, val, hv, rfl⟩
    · exact ih
    · refine ⟨Nat.lt_succ_of_lt ih.1, ?_⟩
      rw [keyAt_created _ id val hv, if_neg (Nat.ne_of_gt ih.1)]
      exact ih.2
  | remove listFor _ ih => exact ih
  | mutate s f _ ih =>
    refine ⟨?_, by rw [keyAt_mutate]; exact ih.2⟩
    have hn : ∀ m : ListManager K L, (m.mutate s f).nextPos = m.nextPos := by
      intro m
      unfold mutate
      cases m.lists[s]? <;> simp
    rw [hn]
    exact ih.1

lemma list_of_tracked [DecidableEq K] {MaxLists : Nat} {dflt : K} {m : ListManager K L}
    (hi : Inv MaxLists m) (hu : UnusedDefault dflt m) {sampled : K} {slot : Nat}
    (ht : Tracked m sampled slot) : m.list sampled = ListResult.ref slot m := by
  obtain ⟨hlen, hpos, hkeys⟩ := hi
  have hsl : slot < m.lists.length := by
    have := ht.1
    omega
  have hks : m.lists[slot].mKey = sampled := by
    have := ht.2
    simpa [keyAt, hsl, ListManagerEntry.key] using this
  cases hs : scan sampled m.lists with
  | none => exact absurd hks (scan_eq_none sampled m.lists hs _ (List.getElem_mem hsl))
  | some i =>
    obtain ⟨⟨e, he, hek⟩, _⟩ := scan_eq_some sampled m.lists i hs
    have hki : m.keyAt i = some sampled := by simp [keyAt, he, ListManagerEntry.key, hek]
    have hil : i < m.lists.length := (List.getElem?_eq_some_iff.mp he).1
    have hin : i < m.nextPos := by
      by_contra hge
      have hd := hu.1 i (by omega) hil
      exact hu.2 slot ht.1 (by rw [ht.2, ← hki, hd])
    have his : i = slot := by
      by_contra hne
      rcases Nat.lt_or_gt_of_ne hne with hlt | hgt
      · exact hkeys i slot hlt ht.1 (by rw [hki, ht.2])
      · exact hkeys slot i hgt hin (by rw [hki, ht.2])
    simp only [list, hs, his]

lemma tracked_of_list [DecidableEq K] {dflt : K} {m : ListManager K L}
    (hu : UnusedDefault dflt m) {sampled : K} (hne : sampled ≠ dflt) {slot : Nat}
    {after : ListManager K L} (hr : m.list sampled = ListResult.ref slot after) :
    Tracked after sampled slot := by
  rcases list_cases hr with ⟨hs, rfl⟩ | ⟨_, rfl, val, hv, rfl⟩
  · obtain ⟨⟨e, he, hek⟩, _⟩ := scan_eq_some sampled _ slot hs
    have hk : after.keyAt slot = some sampled := by
      simp [keyAt, he, ListManagerEntry.key, hek]
    refine ⟨?_, hk⟩
    by_contra hge
    have hd := hu.1 slot (by omega) (List.getElem?_eq_some_iff.mp he).1
    rw [hk] at hd
    exact hne (Option.some.inj hd)
  · exact ⟨Nat.lt_succ_self _, by rw [keyAt_created m sampled val hv, if_pos rfl]⟩

/-- An identifier other than the value-initialised one keeps its slot: once
`list(sampled)` has returned slot `slot`, every later `list(sampled)`, after any
calls that stay within the pool, returns slot `slot` again and changes nothing. -/
lemma list_same_slot_of_ne_default [DecidableEq K] {MaxLists : Nat} {dflt : K} {empty : L}
    {m : ListManager K L} (h : Reachable MaxLists dflt empty m) {sampled : K}
    (hne : sampled ≠ dflt) {slot : Nat} {after : ListManager K L}
    (hr : m.list sampled = ListResult.ref slot after) {later : ListManager K L}
    (hl : ReachableFrom after later) : later.list sampled = ListResult.ref slot later := by
  have hu : UnusedDefault dflt m :=
    UnusedDefault_of_reachableFrom (UnusedDefault_new MaxLists dflt empty) h
  have hia : Inv MaxLists after := Inv_list (Inv_of_reachable h) sampled slot after hr
  exact list_of_tracked (Inv_of_reachableFrom hia hl)
    (UnusedDefault_of_reachableFrom (UnusedDefault_list hu hr) hl)
    (Tracked_of_reachableFrom (tracked_of_list hu hne hr) hl)

/-- Two different identifiers other than the value-initialised one never get the
same slot, whenever their `list()` calls are made. -/
lemma list_slots_differ_of_ne_default [DecidableEq K] {MaxLists : Nat} {dflt : K}
    {empty : L} {m : ListManager K L} (h : Reachable MaxLists dflt empty m) {a b : K}
    (ha : a ≠ dflt) (hb : b ≠ dflt) (hab : a ≠ b) {sa sb : Nat}
    {after later after' : ListManager K L} (hra : m.list a = ListResult.ref sa after)
    (hl : ReachableFrom after later) (hrb : later.list b = ListResult.ref sb after') :
    sa ≠ sb := by
  have hu : UnusedDefault dflt m :=
    UnusedDefault_of_reachableFrom (UnusedDefault_new MaxLists dflt empty) h
  have hul : UnusedDefault dflt later :=
    UnusedDefault_of_reachableFrom (UnusedDefault_list hu hra) hl
  have hta : Tracked after' a sa :=
    Tracked_of_reachableFrom (tracked_of_list hu ha hra)
      (ReachableFrom.list b sb after' hl hrb)
  have htb : Tracked after' b sb := tracked_of_list hul hb hrb
  intro hs
  rw [hs] at hta
  exact hab (Option.some.inj (hta.2.symm.trans htb.2))

lemma scan_eq_none_of_forall [DecidableEq K] (sampled : K) :
    ∀ (l : List (ListManagerEntry K L)), (∀ e ∈ l, e.key ≠ sampled) → scan sampled l = none
  | [], _ => rfl
  | entry :: rest, h => by
    have hk : ¬ entry.key = sampled := h entry (List.mem_cons_self _ _)
    have hr := scan_eq_none_of_forall sampled rest fun e he => h e (List.mem_cons_of_mem _ he)
    simp [scan, hk, hr]

lemma listAt_created (m : ListManager K L) (sampled : K) (val : ListManagerEntry K L)
    (hv : m.lists[m.nextPos]? = some val) (i : Nat) :
    listAt { lists := m.lists.set m.nextPos (val.emplace sampled), nextPos := m.nextPos + 1 } i
      = m.listAt i := by
  have hlt : m.nextPos < m.lists.length := (List.getElem?_eq_some_iff.mp hv).1
  unfold listAt
  simp only [List.getElem?_set]
  by_cases hi : m.nextPos = i
  · subst hi
    simp [hlt, hv, ListManagerEntry.value, ListManagerEntry.emplace]
  · simp [hi]

lemma createdSlots_range [DecidableEq K] :
    ∀ (ids : List K) (m : ListManager K L) (slots : List Nat),
      createdSlots m ids = some slots → slots = List.range' m.nextPos slots.length
  | [], m, slots, h => by
    simp only [createdSlots, Option.some.injEq] at h
    subst h
    rfl
  | sampled :: rest, m, slots, h => by
    unfold createdSlots at h
    cases hl : m.list sampled with
    | outOfBounds i n => simp [hl] at h
    | ref slot after =>
      simp only [hl, Option.map_eq_some'] at h
      obtain ⟨tail, ht, hs⟩ := h
      have ih := createdSlots_range rest after tail ht
      rcases list_cases hl with ⟨hsc, rfl⟩ | ⟨hsc, rfl, val, _, rfl⟩
      · simp only [hsc, Option.isNone_some, Bool.false_eq_true, if_false] at hs
        subst hs
        exact ih
      · simp only [hsc, Option.isNone_none, if_true] at hs
        subst hs
        simp only [List.length_cons, List.range'_succ]
        rw [← ih]

lemma scan_eq_none_iff [DecidableEq K] (sampled : K) (l : List (ListManagerEntry K L)) :
    scan sampled l = none ↔ ∀ e ∈ l, e.key ≠ sampled :=
  ⟨scan_eq_none sampled l, scan_eq_none_of_forall sampled l⟩

lemma list_eq_outOfBounds_iff [DecidableEq K] (m : ListManager K L) (sampled : K)
    (index next : Nat) :
    m.list sampled = ListResult.outOfBounds index next ↔
      scan sampled m.lists = none ∧ m.lists.length ≤ m.nextPos ∧ index = m.nextPos ∧
        next = m.nextPos + 1 := by
  unfold list
  cases hs : scan sampled m.lists with
  | some i => simp
  | none =>
    cases hv : m.lists[m.nextPos]? with
    | some val =>
      have hlt : m.nextPos < m.lists.length := (List.getElem?_eq_some_iff.mp hv).1
      simp only [reduceCtorEq, true_and, false_iff, not_and]
      intro hle
      omega
    | none =>
      have hge : m.lists.length ≤ m.nextPos := List.getElem?_eq_none_iff.mp hv
      simp only [ListResult.outOfBounds.injEq, true_and, hge]
      constructor
      · rintro ⟨h1, h2⟩
        exact ⟨h1.symm, h2.symm⟩
      · rintro ⟨h1, h2⟩
        exact ⟨h1.symm, h2.symm⟩

end ListManager

/-! ## Lemmas on the VariantSet -/

namespace VariantSet

variable {τ : Type} {El : τ → Type}

lemma createInstances_spec [∀ t, Inhabited (El t)] :
    ∀ (RestT : List τ) (FirstT : τ) (pos : Nat) (vs : List (Variant El)),
      pos + RestT.length < vs.length →
      ∃ vs', createInstances FirstT RestT pos vs = some vs' ∧ vs'.length = vs.length ∧
        ∀ i, vs'[i]? =
          if pos ≤ i ∧ i < pos + (RestT.length + 1)
          then ((FirstT :: RestT)[i - pos]?).map fresh else vs[i]?
  | [], LastT, pos, vs, h => by
    have hp : pos < vs.length := by simpa using h
    refine ⟨vs.set pos (fresh LastT), by simp [createInstances, emplaceAt, hp, fresh],
      by simp, ?_⟩
    intro i
    simp only [List.getElem?_set, List.length_nil, Nat.zero_add]
    by_cases hi : pos = i
    · subst hi
      simp [hp]
    · have : ¬ (pos ≤ i ∧ i < pos + 1) := by omega
      simp [hi, this]
  | SecondT :: RestT, FirstT, pos, vs, h => by
    have hp : pos < vs.length := by
      simp only [List.length_cons] at h
      omega
    have h1 : pos + 1 + RestT.length < (vs.set pos (fresh FirstT)).length := by
      simp only [List.length_cons] at h
      simp only [List.length_set]
      omega
    obtain ⟨vs', hc, hl, hget⟩ :=
      createInstances_spec RestT SecondT (pos + 1) (vs.set pos (fresh FirstT)) h1
    refine ⟨vs', ?_, by simpa using hl, ?_⟩
    · simp only [createInstances, emplaceAt, hp, if_true, Option.some_bind]
      exact hc
    · intro i
      rw [hget i]
      simp only [List.getElem?_set, List.length_cons]
      by_cases hlo : pos + 1 ≤ i ∧ i < pos + 1 + (RestT.length + 1)
      · have hhi : pos ≤ i ∧ i < pos + (RestT.length + 1 + 1) := by omega
        obtain ⟨k, hk⟩ : ∃ k, i - pos = k + 1 := ⟨i - pos - 1, by omega⟩
        have hk' : i - (pos + 1) = k := by omega
        simp [hlo, hhi, hk, hk']
      · by_cases hi : pos = i
        · subst hi
          have hhi : pos ≤ pos ∧ pos < pos + (RestT.length + 1 + 1) := by omega
          simp [hlo, hhi, hp]
        · have hhi : ¬ (pos ≤ i ∧ i < pos + (RestT.length + 1 + 1)) := by omega
          simp [hlo, hhi, hi]

lemma new_eq [∀ t, Inhabited (El t)] (FirstT : τ) (RestT : List τ) :
    (new FirstT RestT : Option (VariantSet El)) =
      some { variants := (FirstT :: RestT).map fresh } := by
  obtain ⟨vs', hc, hl, hget⟩ := createInstances_spec RestT FirstT 0
    (List.replicate (RestT.length + 1) (fresh FirstT : Variant El)) (by simp)
  have hvs : vs' = (FirstT :: RestT).map fresh := by
    apply List.ext_getElem?
    intro i
    rw [hget i]
    by_cases hi : i < RestT.length + 1
    · simp only [Nat.zero_le, true_and, Nat.zero_add, hi, if_true, Nat.sub_zero,
        List.getElem?_map]
    · have h1 : (List.replicate (RestT.length + 1) (fresh FirstT : Variant El))[i]? = none :=
        List.getElem?_eq_none (by simp; omega)
      have h2 : (List.map (fun t => (fresh t : Variant El)) (FirstT :: RestT))[i]? = none :=
        List.getElem?_eq_none (by simp; omega)
      rw [h2]
      simp [hi, h1]
  unfold new
  rw [hc, hvs]
  rfl

lemma firstHolding_eq [DecidableEq τ] (ValT : τ) :
    ∀ (vs : List (Variant El)), ValT ∈ vs.map Variant.type →
      firstHolding ValT vs = some (List.indexOf ValT (vs.map Variant.type))
  | [], h => by simp at h
  | v :: rest, h => by
    unfold firstHolding
    by_cases hv : v.type = ValT
    · simp [hv]
    · have hm : ValT ∈ rest.map Variant.type := by
        simp only [List.map_cons, List.mem_cons] at h
        rcases h with h | h
        · exact absurd h.symm hv
        · exact h
      simp only [hv, if_false, List.map_cons]
      rw [firstHolding_eq ValT rest hm, List.indexOf_cons_ne _ hv]
      rfl

lemma types_write [DecidableEq τ] (s : VariantSet El) (slot : Nat) (ValT : τ)
    (f : El ValT → El ValT) :
    (s.write slot ValT f).variants.map Variant.type = s.variants.map Variant.type := by
  unfold write
  cases hs : s.variants[slot]? with
  | none => rfl
  | some v =>
    by_cases h : v.type = ValT
    · simp only [h, dif_pos]
      apply List.ext_getElem?
      intro i
      simp only [List.getElem?_map, List.getElem?_set]
      by_cases hi : slot = i
      · subst hi
        have hlt : slot < s.variants.length := (List.getElem?_eq_some_iff.mp hs).1
        simp [hlt, hs, h]
      · simp [hi]
    · simp [h]

lemma types_of_reachable [∀ t, Inhabited (El t)] [DecidableEq τ] {FirstT : τ}
    {RestT : List τ} {s : VariantSet El} (h : Reachable FirstT RestT s) :
    s.variants.map Variant.type = FirstT :: RestT := by
  induction h with
  | construct s hs =>
    rw [new_eq] at hs
    cases hs
    simp [fresh, Function.comp_def]
  | write ValT slot f _ _ ih => rw [types_write, ih]

lemma read_write [DecidableEq τ] (s : VariantSet El) (slot : Nat) (ValT : τ)
    (f : El ValT → El ValT) (x : El ValT) (h : s.read slot ValT = some x) :
    (s.write slot ValT f).read slot ValT = some (f x) := by
  unfold read at h
  cases hs : s.variants[slot]? with
  | none => simp [hs] at h
  | some v =>
    have hlt : slot < s.variants.length := (List.getElem?_eq_some_iff.mp hs).1
    simp only [hs] at h
    by_cases hv : v.type = ValT
    · simp only [hv, dif_pos, Option.some.injEq] at h
      simp [write, read, hs, hv, hlt, h]
    · simp [hv] at h

lemma read_of_types [DecidableEq τ] (s : VariantSet El) (ts : List τ)
    (hts : s.variants.map Variant.type = ts) (i : Nat) (T : τ) (hi : ts[i]? = some T) :
    ∃ x, s.read i T = some x := by
  rw [← hts, List.getElem?_map] at hi
  cases hs : s.variants[i]? with
  | none => simp [hs] at hi
  | some v =>
    have hv : v.type = T := by simpa [hs] using hi
    exact ⟨hv ▸ v.value, by simp [read, hs, hv]⟩

end VariantSet

/-! ## ListManager: the claims -/

open ListManager Example

/-- C1, evaluated on the code with `MaxLists = 2`: `list(0)` on a fresh manager
returns slot 0 without creating an entry; a sample 7 is pushed through it;
`list(5)` then creates its entry in slot 0; a later `list(0)` returns slot 1, and
a sample 8 pushed through it lands in a second list. The two `list(0)` calls
return different slots. -/
theorem list_default_key_changes_slot :
    fresh2.list 0 = ListResult.ref 0 fresh2 ∧
    (fresh2.mutate 0 (push 7)).list 5 = ListResult.ref 0 five2 ∧
    five2.list 0 = ListResult.ref 1 five2 ∧
    five2.mutate 1 (push 8) = five2pushed ∧
    five2pushed.listAt 0 = some [7] ∧ five2pushed.listAt 1 = some [8] := by
  refine ⟨?_, ?_, ?_, ?_, ?_, ?_⟩ <;> decide

/-- C2, evaluated on the code with `MaxLists = 2`: after `list(1)` and `list(2)`
the pool is full, and `list(3)` steps `nextPos` to 3 and indexes `lists[2]`,
outside the array; no result that leaves the manager as it was is returned. -/
theorem list_full_pool_out_of_bounds :
    fresh2.list 1 = ListResult.ref 0 one2 ∧
    one2.list 2 = ListResult.ref 1 full2 ∧
    full2.size = 2 ∧ full2.MaxLists = 2 ∧
    full2.list 3 = ListResult.outOfBounds 2 3 := by
  refine ⟨?_, ?_, ?_, ?_, ?_⟩ <;> decide

/-- C3, evaluated on the code with `MaxLists = 3`: `list(4)` creates slot 0;
`list(0)` returns the unused slot 1; a sample 9 is pushed through it; `list(6)`,
a different identifier, returns slot 1 too, and the sample pushed for identifier
0 is in the list returned for identifier 6. -/
theorem list_distinct_ids_share_slot :
    fresh3.list 4 = ListResult.ref 0 four3 ∧
    four3.list 0 = ListResult.ref 1 four3 ∧
    (four3.mutate 1 (push 9)).list 6 = ListResult.ref 1 foursix3 ∧
    foursix3.listAt 1 = some [9] := by
  refine ⟨?_, ?_, ?_, ?_⟩ <;> decide

/-- C4, evaluated on the code with `MaxLists = 2`: `list(0)` returns slot 0 and a
sample 7 is pushed through it; the manager tracks no identifier (`size()` is 0)
and 5 was never passed to `list()`, yet `list(5)` returns a list that holds the
sample 7 instead of an empty one. -/
theorem list_new_id_not_empty :
    fresh2.list 0 = ListResult.ref 0 fresh2 ∧
    (fresh2.mutate 0 (push 7)).size = 0 ∧
    (∃ after, (fresh2.mutate 0 (push 7)).list 5 = ListResult.ref 0 after ∧
      after.listAt 0 = some [7] ∧ after.listAt 0 ≠ some []) := by
  refine ⟨by decide, by decide, ?_⟩
  exact ⟨five2, by decide, by decide, by decide⟩

/-- C5, on the code: whatever the identifier type, on a freshly constructed
manager with at least one slot `list()` of the value-initialised identifier
returns slot 0 and leaves `size()` at 0, where one distinct identifier has been
passed to `list()`. -/
theorem size_zero_after_list_default {K L : Type} [DecidableEq K] (MaxLists : Nat)
    (dflt : K) (empty : L) (h : 0 < MaxLists) :
    (new MaxLists dflt empty).list dflt = ListResult.ref 0 (new MaxLists dflt empty) ∧
      (new MaxLists dflt empty).size = 0 := by
  obtain ⟨n, rfl⟩ : ∃ n, MaxLists = n + 1 := ⟨MaxLists - 1, by omega⟩
  refine ⟨?_, rfl⟩
  simp [ListManager.list, new, List.replicate_succ, scan, ListManagerEntry.key]

/-- The witness of `size_zero_after_list_default`: the manager `fresh2`. -/
theorem size_zero_after_list_default_witness :
    0 < 2 ∧ fresh2.list 0 = ListResult.ref 0 fresh2 ∧ fresh2.size = 0 :=
  ⟨by decide, size_zero_after_list_default 2 0 [] (by decide)⟩

/-- C6: in every state reachable from construction by `list()` calls within the
pool, `remove()` calls and pushes, any two different pool indices below `size()`
hold entries with different keys. -/
theorem active_keys_pairwise_distinct {K L : Type} [DecidableEq K] (MaxLists : Nat)
    (dflt : K) (empty : L) (m : ListManager K L) (h : Reachable MaxLists dflt empty m)
    (i j : Nat) (hi : i < m.size) (hj : j < m.size) (hij : i ≠ j) :
    ∃ a b, m.keyAt i = some a ∧ m.keyAt j = some b ∧ a ≠ b := by
  obtain ⟨hlen, hpos, hkeys⟩ := Inv_of_reachable h
  unfold size at hi hj
  have hil : i < m.lists.length := by omega
  have hjl : j < m.lists.length := by omega
  refine ⟨m.lists[i].key, m.lists[j].key, by simp [keyAt, hil], by simp [keyAt, hjl], ?_⟩
  intro hab
  have hne : m.keyAt i ≠ m.keyAt j := by
    rcases Nat.lt_or_gt_of_ne hij with hlt | hgt
    · exact hkeys i j hlt hj
    · exact fun he => hkeys j i hgt hi he.symm
  apply hne
  simp [keyAt, hil, hjl, hab]

/-- The witness of `active_keys_pairwise_distinct`: the full manager `full2`,
reached by `list(1)` and `list(2)`, at indices 0 and 1. -/
theorem active_keys_pairwise_distinct_witness :
    Reachable 2 0 [] full2 ∧
      ∃ a b, full2.keyAt 0 = some a ∧ full2.keyAt 1 = some b ∧ a ≠ b :=
  have hr : Reachable 2 0 [] full2 :=
    ReachableFrom.list 2 1 full2 (ReachableFrom.list 1 0 one2 ReachableFrom.start (by decide))
      (by decide)
  ⟨hr, active_keys_pairwise_distinct 2 0 [] full2 hr 0 1 (by decide) (by decide) (by decide)⟩

/-- C7, evaluated on the code with `MaxLists = 2`: on the full manager that
tracks 1 and 2, `remove(1)` changes nothing: `size()` is still 2, `list(1)`
still finds slot 0, and `list(3)` for a new identifier still indexes `lists[2]`,
outside the array. -/
theorem remove_releases_nothing :
    full2.remove 1 = full2 ∧ (full2.remove 1).size = 2 ∧
    (full2.remove 1).list 1 = ListResult.ref 0 full2 ∧
    (full2.remove 1).list 3 = ListResult.outOfBounds 2 3 := by
  refine ⟨?_, ?_, ?_, ?_⟩ <;> decide

/-- C11: in every state with `size() = n < MaxLists`, so in every reachable one,
`list(sampled)` for an identifier that no pool entry's key matches returns slot
`n`, whose key is now `sampled` and whose list is what slot `n` held, makes
`size()` equal `n + 1`, and leaves the key and the list of every other slot as
they were; and in a sequence of `list()` calls on a freshly constructed manager
the `k`-th identifier that matched no entry (counted from 0) gets pool index
`k`. -/
theorem list_allocates_next_slot {K L : Type} [DecidableEq K] (m : ListManager K L)
    (sampled : K) (hn : m.size < m.MaxLists) (hid : ∀ e ∈ m.lists, e.key ≠ sampled) :
    (∃ after, m.list sampled = ListResult.ref m.size after ∧
      after.keyAt m.size = some sampled ∧ after.listAt m.size = m.listAt m.size ∧
      after.size = m.size + 1 ∧ after.MaxLists = m.MaxLists ∧
      ∀ i, i ≠ m.size → after.keyAt i = m.keyAt i ∧ after.listAt i = m.listAt i) ∧
    ∀ (n : Nat) (dflt : K) (empty : L) (ids : List K) (slots : List Nat),
      createdSlots (new n dflt empty) ids = some slots →
      ∀ k, k < slots.length → slots[k]? = some k := by
  constructor
  · have hs : scan sampled m.lists = none := scan_eq_none_of_forall sampled m.lists hid
    have hlt : m.nextPos < m.lists.length := hn
    have hv : m.lists[m.nextPos]? = some m.lists[m.nextPos] := List.getElem?_eq_getElem hlt
    refine ⟨{ lists := m.lists.set m.nextPos (m.lists[m.nextPos].emplace sampled),
              nextPos := m.nextPos + 1 }, ?_, ?_, ?_, rfl, ?_, ?_⟩
    · simp only [ListManager.list, hs, hv, size]
    · rw [keyAt_created m sampled _ hv]
      simp [size]
    · exact listAt_created m sampled _ hv _
    · simp [MaxLists]
    · intro i hi
      refine ⟨?_, listAt_created m sampled _ hv i⟩
      rw [keyAt_created m sampled _ hv, if_neg (fun h => hi h.symm)]
  · intro n dflt empty ids slots h k hk
    have hr : slots = List.range' 0 slots.length :=
      createdSlots_range ids (new n dflt empty) slots h
    have hget : (List.range' 0 slots.length)[k]? = some (0 + 1 * k) :=
      List.getElem?_range' 0 1 hk
    rw [hr]
    simpa using hget

/-- The witness of `list_allocates_next_slot`: `list(2)` on the manager `one2`. -/
theorem list_allocates_next_slot_witness :
    one2.size < one2.MaxLists ∧ (∀ e ∈ one2.lists, e.key ≠ 2) ∧
      ∃ after, one2.list 2 = ListResult.ref one2.size after ∧
        after.keyAt one2.size = some 2 ∧ after.size = one2.size + 1 :=
  ⟨by decide, by decide,
    (list_allocates_next_slot one2 2 (by decide) (by decide)).1.imp fun _ h =>
      ⟨h.1, h.2.1, h.2.2.2.1⟩⟩

/-- C12: in every state, `list(sampled)` for an identifier equal to the key of
some pool entry returns the slot of the lowest-indexed entry with that key and
leaves the manager as it was: `size()`, every key and every list are the same
after the call. -/
theorem list_lookup_read_only {K L : Type} [DecidableEq K] (m : ListManager K L)
    (sampled : K) (h : ∃ e ∈ m.lists, e.key = sampled) :
    ∃ slot after, m.list sampled = ListResult.ref slot after ∧
      m.keyAt slot = some sampled ∧ (∀ j, j < slot → m.keyAt j ≠ some sampled) ∧
      after = m ∧ after.size = m.size ∧
      ∀ i, after.keyAt i = m.keyAt i ∧ after.listAt i = m.listAt i := by
  cases hs : scan sampled m.lists with
  | none =>
    obtain ⟨e, he, hk⟩ := h
    exact absurd hk (scan_eq_none sampled m.lists hs e he)
  | some slot =>
    obtain ⟨⟨e, he, hk⟩, hlow⟩ := scan_eq_some sampled m.lists slot hs
    refine ⟨slot, m, by simp only [ListManager.list, hs], ?_, ?_, rfl, rfl,
      fun i => ⟨rfl, rfl⟩⟩
    · simp [keyAt, he, ListManagerEntry.key, hk]
    · intro j hj hkj
      unfold keyAt at hkj
      cases hje : m.lists[j]? with
      | none => simp [hje] at hkj
      | some e' =>
        simp only [hje, Option.map_some', Option.some.injEq] at hkj
        exact hlow j hj e' hje hkj

/-- The witness of `list_lookup_read_only`: `list(2)` on the full manager
`full2`. -/
theorem list_lookup_read_only_witness :
    (∃ e ∈ full2.lists, e.key = 2) ∧
      ∃ slot after, full2.list 2 = ListResult.ref slot after ∧
        full2.keyAt slot = some 2 ∧ after = full2 :=
  ⟨by decide,
    (list_lookup_read_only full2 2 (by decide)).imp fun _ h =>
      h.imp fun _ h' => ⟨h'.1, h'.2.1, h'.2.2.2.1⟩⟩

/-- C13: in every state reached from construction by `list()` calls that stay
within the pool, `remove()` calls and pushes, the array still has `MaxLists`
slots and `0 ≤ nextPos ≤ MaxLists`; a `list()` call returns a slot, and one below
`MaxLists`, exactly when it finds its identifier or is made while
`size() < MaxLists`; and it indexes outside the pool, at `lists[MaxLists]`,
exactly when no entry's key matches the identifier and `size() = MaxLists`. -/
theorem list_index_within_pool {K L : Type} [DecidableEq K] (MaxLists : Nat) (dflt : K)
    (empty : L) (m : ListManager K L) (h : Reachable MaxLists dflt empty m) (sampled : K) :
    m.MaxLists = MaxLists ∧ 0 ≤ m.nextPos ∧ m.nextPos ≤ MaxLists ∧
    (((∃ e ∈ m.lists, e.key = sampled) ∨ m.size < MaxLists) ↔
      ∃ slot after, m.list sampled = ListResult.ref slot after ∧ slot < MaxLists) ∧
    ∀ index next, m.list sampled = ListResult.outOfBounds index next ↔
      (∀ e ∈ m.lists, e.key ≠ sampled) ∧ m.size = MaxLists ∧ index = MaxLists ∧
        next = MaxLists + 1 := by
  obtain ⟨hlen, hpos, _⟩ := Inv_of_reachable h
  refine ⟨hlen, Nat.zero_le _, hpos, ?_, ?_⟩
  · constructor
    · intro hc
      cases hs : scan sampled m.lists with
      | some slot =>
        obtain ⟨⟨e, he, _⟩, _⟩ := scan_eq_some sampled m.lists slot hs
        exact ⟨slot, m, by simp only [ListManager.list, hs],
          hlen ▸ (List.getElem?_eq_some_iff.mp he).1⟩
      | none =>
        rcases hc with ⟨e, he, hk⟩ | hlt
        · exact absurd hk (scan_eq_none sampled m.lists hs e he)
        · have hl : m.nextPos < m.lists.length := by
            unfold size at hlt
            omega
          exact ⟨m.nextPos,
            { lists := m.lists.set m.nextPos (m.lists[m.nextPos].emplace sampled),
              nextPos := m.nextPos + 1 },
            by simp only [ListManager.list, hs, List.getElem?_eq_getElem hl], hlen ▸ hl⟩
    · rintro ⟨slot, after, hr, _⟩
      rcases list_cases hr with ⟨hs, _⟩ | ⟨_, _, val, hv, _⟩
      · obtain ⟨⟨e, he, hk⟩, _⟩ := scan_eq_some sampled m.lists slot hs
        exact Or.inl ⟨e, List.getElem?_mem he, hk⟩
      · exact Or.inr (hlen ▸ (List.getElem?_eq_some_iff.mp hv).1)
  · intro index next
    rw [list_eq_outOfBounds_iff, scan_eq_none_iff]
    unfold size
    constructor
    · rintro ⟨hall, hge, rfl, rfl⟩
      have : m.nextPos = MaxLists := by omega
      exact ⟨hall, this, this, by rw [this]⟩
    · rintro ⟨hall, hsz, rfl, rfl⟩
      exact ⟨hall, by omega, hsz.symm, by rw [hsz]⟩

/-- The witness of `list_index_within_pool`: the full manager `full2` and the
identifier 3. -/
theorem list_index_within_pool_witness :
    Reachable 2 0 [] full2 ∧ full2.nextPos ≤ 2 ∧
      (full2.list 3 = ListResult.outOfBounds 2 3 ↔
        (∀ e ∈ full2.lists, e.key ≠ 3) ∧ full2.size = 2 ∧ 2 = 2 ∧ 3 = 2 + 1) :=
  have hr : Reachable 2 0 [] full2 :=
    ReachableFrom.list 2 1 full2 (ReachableFrom.list 1 0 one2 ReachableFrom.start (by decide))
      (by decide)
  have h := list_index_within_pool 2 0 [] full2 hr 3
  ⟨hr, h.2.2.1, h.2.2.2.2 2 3⟩

/-! ## VariantSet: the claims -/

open VariantSet in
/-- C8: for a pack `FirstT, RestT...` of pairwise different types and a type `T`
of the pack, construction succeeds and the slot at the position of `T` holds a
value-initialised `T`; in every state reached from construction by mutations
through returned references, `get<T>()` returns the slot at the one position of
`T` in the pack (it does not throw), and a mutation `f` made through it is what a
later `get<T>()` at the same slot shows. -/
theorem get_declared_type {τ : Type} {El : τ → Type} [∀ t, Inhabited (El t)]
    [DecidableEq τ] (FirstT : τ) (RestT : List τ) (hnd : (FirstT :: RestT).Nodup) (T : τ)
    (hT : T ∈ FirstT :: RestT) :
    (∀ j, (FirstT :: RestT)[j]? = some T → j = List.indexOf T (FirstT :: RestT)) ∧
    (∃ s0 : VariantSet El, new FirstT RestT = some s0 ∧
      s0.get T = GetResult.ref (List.indexOf T (FirstT :: RestT)) ∧
      s0.read (List.indexOf T (FirstT :: RestT)) T = some default) ∧
    ∀ s : VariantSet El, Reachable FirstT RestT s →
      s.get T = GetResult.ref (List.indexOf T (FirstT :: RestT)) ∧
      ∃ x, s.read (List.indexOf T (FirstT :: RestT)) T = some x ∧
        ∀ f : El T → El T,
          (s.write (List.indexOf T (FirstT :: RestT)) T f).get T
            = GetResult.ref (List.indexOf T (FirstT :: RestT)) ∧
          (s.write (List.indexOf T (FirstT :: RestT)) T f).read
            (List.indexOf T (FirstT :: RestT)) T = some (f x) := by
  have hidx : (FirstT :: RestT)[List.indexOf T (FirstT :: RestT)]? = some T := by
    rw [← List.get?_eq_getElem?]
    exact List.indexOf_get? hT
  have hget : ∀ s : VariantSet El, s.variants.map Variant.type = FirstT :: RestT →
      s.get T = GetResult.ref (List.indexOf T (FirstT :: RestT)) := by
    intro s hs
    unfold VariantSet.get
    rw [firstHolding_eq T s.variants (hs ▸ hT), hs]
  refine ⟨?_, ?_, ?_⟩
  · intro j hj
    obtain ⟨hjl, hje⟩ := List.getElem?_eq_some_iff.mp hj
    rw [← hje]
    exact (List.indexOf_getElem hnd j hjl).symm
  · have hr : Reachable FirstT RestT ({ variants := (FirstT :: RestT).map fresh } :
        VariantSet El) := Reachable.construct _ (new_eq FirstT RestT)
    refine ⟨_, new_eq FirstT RestT, hget _ (types_of_reachable hr), ?_⟩
    obtain ⟨hl, _⟩ := List.getElem?_eq_some_iff.mp hidx
    have hv : ((FirstT :: RestT).map (fun t => (fresh t : Variant El)))[List.indexOf T (FirstT :: RestT)]?
        = some (fresh T) := by
      rw [List.getElem?_map, hidx]
      rfl
    simp only [VariantSet.read, hv]
    simp [fresh]
  · intro s hs
    have hty := types_of_reachable hs
    refine ⟨hget s hty, ?_⟩
    obtain ⟨x, hx⟩ := read_of_types s _ hty _ T hidx
    refine ⟨x, hx, fun f => ⟨?_, read_write s _ T f x hx⟩⟩
    exact hget _ ((types_write s _ T f).trans hty)

/-- The witness of `get_declared_type`: the pack `rssi, distance` and the type
`distance`, at position 1. -/
theorem get_declared_type_witness :
    [ValueType.rssi, ValueType.distance].Nodup ∧
      ValueType.distance ∈ [ValueType.rssi, ValueType.distance] ∧
      ∃ s0 : VariantSet ValueType.El,
        VariantSet.new ValueType.rssi [ValueType.distance] = some s0 ∧
        s0.get ValueType.distance = GetResult.ref 1 :=
  have h := @get_declared_type ValueType ValueType.El _ _ ValueType.rssi [ValueType.distance]
    (by decide) ValueType.distance (by decide)
  ⟨by decide, by decide, h.2.1.imp fun _ hs => ⟨hs.1, hs.2.1⟩⟩

open VariantSet in
/-- C9: for every pack `FirstT, RestT...` of `n` types, construction makes no
write outside the array, `size()` is `n`, and for every `i < n` slot `i` holds a
value-initialised value of the `i`-th type; when the types are pairwise
different, each of them is held by exactly one slot. -/
theorem construct_one_instance_per_type {τ : Type} {El : τ → Type}
    [∀ t, Inhabited (El t)] (FirstT : τ) (RestT : List τ) :
    ∃ s : VariantSet El, new FirstT RestT = some s ∧
      s.size = (FirstT :: RestT).length ∧
      (∀ (i : Nat) (T : τ), (FirstT :: RestT)[i]? = some T →
        s.variants[i]? = some ({ type := T, value := default } : Variant El)) ∧
      ((FirstT :: RestT).Nodup → ∀ T ∈ FirstT :: RestT,
        ∃! i, i < s.size ∧ ∃ v, s.variants[i]? = some v ∧ v.type = T) := by
  refine ⟨_, new_eq FirstT RestT, by simp [VariantSet.size], ?_, ?_⟩
  · intro i T hi
    simp only [List.getElem?_map, hi]
    rfl
  · intro hnd T hT
    obtain ⟨i, hi, hiT⟩ := List.getElem_of_mem hT
    have hslot : ∀ j : Nat, (∃ v : Variant El,
        ((FirstT :: RestT).map (fun t => (fresh t : Variant El)))[j]? = some v ∧ v.type = T) ↔
        (FirstT :: RestT)[j]? = some T := by
      intro j
      rw [List.getElem?_map]
      cases hj : (FirstT :: RestT)[j]? with
      | none => simp
      | some t => simp [fresh]
    refine ⟨i, ⟨by simpa [VariantSet.size] using hi, (hslot i).mpr ?_⟩, ?_⟩
    · rw [List.getElem?_eq_getElem hi, hiT]
    · rintro j ⟨_, hj⟩
      obtain ⟨hjl, hje⟩ := List.getElem?_eq_some_iff.mp ((hslot j).mp hj)
      exact (List.Nodup.getElem_inj_iff hnd).mp (hje.trans hiT.symm)

/-- The witness of `construct_one_instance_per_type`: the pack `rssi, distance`. -/
theorem construct_one_instance_per_type_witness :
    [ValueType.rssi, ValueType.distance].Nodup ∧
      ∃ s : VariantSet ValueType.El,
        VariantSet.new ValueType.rssi [ValueType.distance] = some s ∧ s.size = 2 ∧
        ∃! i, i < s.size ∧ ∃ v, s.variants[i]? = some v ∧ v.type = ValueType.distance :=
  have h := @construct_one_instance_per_type ValueType ValueType.El _ ValueType.rssi
    [ValueType.distance]
  ⟨by decide, h.imp fun _ hs =>
    ⟨hs.1, hs.2.1, hs.2.2.2 (by decide) ValueType.distance (by decide)⟩⟩

end herald.analysis
